import Mathlib

/-!
Shallow embedding of the DeScribe segmentation core: the document chunker
(`chunkText`, `getOverlapText`, paragraph/sentence splitting), the prosody
analyzer (`calculateProsodyMetrics`) and the prosody-aware transcript chunker
(`groupSegmentsByProsody`).  JavaScript strings are embedded as `List Char`,
JavaScript numbers as `ℚ` (all arithmetic in the source is exact on its
inputs), and `Math.round` as floor of `x + 1/2`.  The sentiment classifier is
an external collaborator and is passed in as a function argument.
-/

namespace DeScribe

/-- JS `\s` whitespace, restricted to the ASCII characters that occur in the
inputs of interest (space, newline, tab, carriage return). -/
def isWs (c : Char) : Bool := c == ' ' || c == '\n' || c == '\t' || c == '\r'

/-- Sentence-terminal punctuation `[.!?]`. -/
def isPunct (c : Char) : Bool := c == '.' || c == '!' || c == '?'

/-- JS `String.prototype.trim`. -/
def trim (s : List Char) : List Char := ((s.dropWhile isWs).reverse.dropWhile isWs).reverse

/-- JS `text.replace(/\r\n/g, "\n").replace(/\r/g, "\n")`. -/
def normalizeNewlines : List Char → List Char
  | [] => []
  | '\r' :: '\n' :: rest => '\n' :: normalizeNewlines rest
  | '\r' :: rest => '\n' :: normalizeNewlines rest
  | c :: rest => c :: normalizeNewlines rest

/-- Worker for `splitWs`: `skipping` is true while inside an already-split
whitespace run (the token before the run has been emitted). -/
def splitWsGo (skipping : Bool) (acc : List Char) : List Char → List (List Char)
  | [] => [acc.reverse]
  | c :: rest =>
    if isWs c then
      if skipping then splitWsGo true acc rest
      else acc.reverse :: splitWsGo true [] rest
    else splitWsGo false (c :: acc) rest

/-- JS `s.split(/\s+/)` (with the leading/trailing empty tokens JS produces
when the string starts/ends with whitespace). -/
def splitWs (s : List Char) : List (List Char) := splitWsGo false [] s

/-- JS `Array.prototype.join(" ")` on a list of strings. -/
def joinSp : List (List Char) → List Char
  | [] => []
  | [w] => w
  | w :: v :: ws => w ++ ' ' :: joinSp (v :: ws)

/-- Word count as computed twice in the source:
`text.trim().split(/\s+/).filter(w => w.length > 0).length`. -/
def wordCountOf (t : List Char) : ℕ :=
  ((splitWs (trim t)).filter (fun w => decide (0 < w.length))).length

/-- JS `Math.round` (round half toward positive infinity), as a rational. -/
def jsRound (q : ℚ) : ℚ := ((⌊q + 1/2⌋ : ℤ) : ℚ)

/-- JS `Math.round(q * 100) / 100`: rounding to two decimal places. -/
def round2 (q : ℚ) : ℚ := jsRound (q * 100) / 100

/-! ## Prosody analyzer (`youtubeTranscript.ts`) -/

structure TranscriptSegment where
  text : List Char
  offset : ℚ
  duration : ℚ
deriving Repr, DecidableEq, Inhabited

structure ProsodyMetrics where
  wordsPerMinute : ℚ
  pauseBefore : ℚ
  relativeSpeed : ℚ
  emphasisScore : ℚ
deriving Repr, DecidableEq, Inhabited

structure EnrichedSegment where
  text : List Char
  offset : ℚ
  duration : ℚ
  prosody : ProsodyMetrics
  segmentIndex : ℕ
deriving Repr, DecidableEq, Inhabited

/-- Per-segment raw (unrounded) words-per-minute from `segmentStats`:
`wpm = durationMinutes > 0 ? wordCount / durationMinutes : 0`. -/
def wpmRawAt (segs : List TranscriptSegment) (i : ℕ) : ℚ :=
  let seg := segs.getD i default
  let durationMinutes := seg.duration / 60000
  if 0 < durationMinutes then (wordCountOf seg.text : ℚ) / durationMinutes else 0

/-- Pause before segment `i`: `max(0, offset[i] - (offset[i-1] + duration[i-1]))`,
`0` for the first segment. -/
def pauseBeforeAt (segs : List TranscriptSegment) (i : ℕ) : ℚ :=
  if 0 < i then
    let seg := segs.getD i default
    let prev := segs.getD (i - 1) default
    max 0 (seg.offset - (prev.offset + prev.duration))
  else 0

/-- `totalWords`: sum of the per-segment word counts. -/
def totalWordsOf (segs : List TranscriptSegment) : ℕ :=
  (segs.map (fun s => wordCountOf s.text)).sum

/-- `totalDuration`: sum of the per-segment durations. -/
def totalDurationOf (segs : List TranscriptSegment) : ℚ :=
  (segs.map (fun s => s.duration)).sum

/-- Unrounded `averageWpm = totalDuration > 0 ? (totalWords / totalDuration) * 60000 : 0`. -/
def averageWpmRaw (segs : List TranscriptSegment) : ℚ :=
  if 0 < totalDurationOf segs then ((totalWordsOf segs : ℚ) / totalDurationOf segs) * 60000
  else 0

/-- The enriched segment built for index `i` in `calculateProsodyMetrics`. -/
def enrichAt (segs : List TranscriptSegment) (i : ℕ) : EnrichedSegment :=
  let seg := segs.getD i default
  let wc := wordCountOf seg.text
  let avg := averageWpmRaw segs
  let relativeSpeed := if 0 < avg then wpmRawAt segs i / avg else 1
  let avgDurationPerWord := if 0 < wc then seg.duration / (wc : ℚ) else 0
  let avgDurationPerWordOverall : ℚ :=
    if 0 < totalWordsOf segs then totalDurationOf segs / (totalWordsOf segs : ℚ) else 1
  let emphasisScore :=
    if 0 < avgDurationPerWordOverall then avgDurationPerWord / avgDurationPerWordOverall else 1
  { text := seg.text, offset := seg.offset, duration := seg.duration, segmentIndex := i,
    prosody :=
      { wordsPerMinute := jsRound (wpmRawAt segs i)
        pauseBefore := jsRound (pauseBeforeAt segs i)
        relativeSpeed := round2 relativeSpeed
        emphasisScore := round2 emphasisScore } }

/-- `calculateProsodyMetrics`: returns the enriched segments and the rounded
transcript-global average WPM. -/
def calculateProsodyMetrics (segs : List TranscriptSegment) : List EnrichedSegment × ℚ :=
  if segs.isEmpty then ([], 0)
  else ((List.range segs.length).map (enrichAt segs), jsRound (averageWpmRaw segs))

/-- Spec-side formula ("averageWpm = totalWords / totalDurationMs × 60000,
computed once over the whole sequence, 0 when the total duration is 0"),
unrounded.  Written from the specification's words for the refinement claim. -/
def specAverageWpmRaw (segs : List TranscriptSegment) : ℚ :=
  if totalDurationOf segs = 0 then 0
  else ((totalWordsOf segs : ℚ) / totalDurationOf segs) * 60000

/-- Spec-side per-segment WPM ("wpm = wordCount / (duration in minutes), or 0
if duration is 0"). Written from the specification's words. -/
def specWpm (segs : List TranscriptSegment) (i : ℕ) : ℚ :=
  let seg := segs.getD i default
  if seg.duration = 0 then 0 else (wordCountOf seg.text : ℚ) / (seg.duration / 60000)

/-! ## Transcript chunker (`groupSegmentsByProsody`) -/

inductive SentimentLabel where
  | positive
  | negative
  | neutral
deriving Repr, DecidableEq, Inhabited

structure ChunkWithAnalysis where
  text : List Char
  startTime : ℚ
  endTime : ℚ
  segmentIndices : List ℕ
  avgEmphasis : ℚ
  avgSpeed : ℚ
  significantPauses : ℕ
  sentiment : SentimentLabel
  sentimentScore : ℚ
deriving Repr, DecidableEq, Inhabited

structure GroupOptions where
  maxChunkDuration : ℚ
  pauseThreshold : ℚ
  targetWordCount : ℚ
deriving Repr, DecidableEq

/-- The defaults `{ maxChunkDuration: 60000, pauseThreshold: 1000, targetWordCount: 150 }`. -/
def defaultGroupOptions : GroupOptions :=
  { maxChunkDuration := 60000, pauseThreshold := 1000, targetWordCount := 150 }

/-- Mutable loop state of `groupSegmentsByProsody`. -/
structure GroupState where
  chunks : List ChunkWithAnalysis
  current : List EnrichedSegment
  currentWordCount : ℕ
  currentDuration : ℚ
deriving Repr, DecidableEq

/-- The chunk record pushed by `finalizeChunk` for a (non-empty) member list.
`classify` is the external sentiment collaborator
(`analyzeSentiment : text ↦ (label, normalizedScore)`). -/
def buildChunk (opts : GroupOptions) (classify : List Char → SentimentLabel × ℚ)
    (cur : List EnrichedSegment) : ChunkWithAnalysis :=
  let text := joinSp (cur.map (fun s => s.text))
  let startTime := (cur.headD default).offset
  let lastSeg := cur.getLastD default
  let avgEmphasis := (cur.map (fun s => s.prosody.emphasisScore)).sum / (cur.length : ℚ)
  let avgSpeed := (cur.map (fun s => s.prosody.relativeSpeed)).sum / (cur.length : ℚ)
  let sres := classify text
  { text := text
    startTime := startTime
    endTime := lastSeg.offset + lastSeg.duration
    segmentIndices := cur.map (fun s => s.segmentIndex)
    avgEmphasis := round2 avgEmphasis
    avgSpeed := round2 avgSpeed
    significantPauses := (cur.filter (fun s => decide (opts.pauseThreshold ≤ s.prosody.pauseBefore))).length
    sentiment := sres.1
    sentimentScore := sres.2 }

/-- `finalizeChunk`: a no-op on an empty current chunk, otherwise pushes the
built chunk and resets the accumulators. -/
def finalizeState (opts : GroupOptions) (classify : List Char → SentimentLabel × ℚ)
    (st : GroupState) : GroupState :=
  if st.current.isEmpty then st
  else
    { chunks := st.chunks ++ [buildChunk opts classify st.current]
      current := [], currentWordCount := 0, currentDuration := 0 }

/-- One iteration of the `for (const segment of segments)` loop. -/
def groupStep (opts : GroupOptions) (classify : List Char → SentimentLabel × ℚ)
    (st : GroupState) (seg : EnrichedSegment) : GroupState :=
  let wordCount := wordCountOf seg.text
  let hasSignificantPause := opts.pauseThreshold ≤ seg.prosody.pauseBefore
  let wouldExceedDuration := opts.maxChunkDuration < st.currentDuration + seg.duration
  let wouldExceedWords := opts.targetWordCount * (3 / 2) < ((st.currentWordCount + wordCount : ℕ) : ℚ)
  let naturalBreak := hasSignificantPause ∧ opts.targetWordCount * (1 / 2) ≤ (st.currentWordCount : ℚ)
  let st' :=
    if ¬ st.current.isEmpty ∧ (wouldExceedDuration ∨ wouldExceedWords ∨ naturalBreak)
    then finalizeState opts classify st
    else st
  { chunks := st'.chunks
    current := st'.current ++ [seg]
    currentWordCount := st'.currentWordCount + wordCount
    currentDuration := st'.currentDuration + seg.duration }

/-- The empty initial loop state. -/
def initGroupState : GroupState :=
  { chunks := [], current := [], currentWordCount := 0, currentDuration := 0 }

/-- `groupSegmentsByProsody`. -/
def groupSegmentsByProsody (segs : List EnrichedSegment) (opts : GroupOptions)
    (classify : List Char → SentimentLabel × ℚ) : List ChunkWithAnalysis :=
  (finalizeState opts classify (segs.foldl (groupStep opts classify) initGroupState)).chunks

/-! ## Document chunker (`chunker.ts`) -/

structure Chunk where
  text : List Char
  chunkIndex : ℕ
  startChar : ℕ
  endChar : ℕ
deriving Repr, DecidableEq, Inhabited

structure ChunkOptions where
  targetSize : ℕ
  minSize : ℕ
  maxSize : ℕ
  overlap : ℕ
deriving Repr, DecidableEq

/-- `DEFAULT_OPTIONS = { targetSize: 1000, minSize: 200, maxSize: 1500, overlap: 100 }`. -/
def defaultChunkOptions : ChunkOptions :=
  { targetSize := 1000, minSize := 200, maxSize := 1500, overlap := 100 }

/-- JS `s.slice(-n)` (for `n = 0` JS treats `-0` as `0` and returns the whole
string). -/
def sliceNeg (s : List Char) (n : ℕ) : List Char :=
  if n = 0 then s else s.drop (s.length - n)

/-- `c != '\n'` as a Bool predicate. -/
def notNl (c : Char) : Bool := !(c == '\n')

/-- Number of newline characters in a list. -/
def countNl (l : List Char) : ℕ := (l.filter (fun c => c == '\n')).length

/-- Worker for `paraSplit`: `acc` is the current part (reversed), `runBuf` the
pending whitespace run (reversed).  A maximal whitespace run containing at
least two newlines contains exactly one `/\n\s*\n/` match, reaching from its
first to its last newline; run characters before the first newline belong to
the preceding part and characters after the last newline to the next part. -/
def paraSplitGo (acc runBuf : List Char) : List Char → List (List Char)
  | [] =>
    if 2 ≤ countNl runBuf then
      [acc.reverse ++ runBuf.reverse.takeWhile notNl, (runBuf.takeWhile notNl).reverse]
    else [(runBuf ++ acc).reverse]
  | c :: rest =>
    if isWs c then paraSplitGo acc (c :: runBuf) rest
    else
      if 2 ≤ countNl runBuf then
        (acc.reverse ++ runBuf.reverse.takeWhile notNl) ::
          paraSplitGo (c :: runBuf.takeWhile notNl) [] rest
      else paraSplitGo (c :: (runBuf ++ acc)) [] rest

/-- JS `text.split(/\n\s*\n/)`. -/
def paraSplit (s : List Char) : List (List Char) := paraSplitGo [] [] s

/-- Worker for `sentSplit`: `prevPunct` records whether the previous character
was sentence-terminal punctuation (the lookbehind), `skipping` whether we are
inside a whitespace run that has been consumed as a split match. -/
def sentSplitGo (prevPunct skipping : Bool) (acc : List Char) : List Char → List (List Char)
  | [] => [acc.reverse]
  | c :: rest =>
    if skipping then
      if isWs c then sentSplitGo false true acc rest
      else sentSplitGo (isPunct c) false [c] rest
    else if prevPunct && isWs c then
      acc.reverse :: sentSplitGo false true [] rest
    else sentSplitGo (isPunct c) false (c :: acc) rest

/-- JS `text.split(/(?<=[.!?])\s+/)`. -/
def sentSplit (s : List Char) : List (List Char) := sentSplitGo false false [] s

/-- `splitIntoSentences`: split on sentence-ending punctuation followed by
whitespace, keeping only parts with non-empty trim. -/
def splitIntoSentences (text : List Char) : List (List Char) :=
  (sentSplit text).filter (fun s => decide (0 < (trim s).length))

/-- JS `hay.indexOf(needle, start)`, `none` for `-1`. -/
def indexOfFrom (hay needle : List Char) (start : ℕ) : Option ℕ :=
  (List.range (hay.length + 1)).find? (fun i => decide (start ≤ i) && needle.isPrefixOf (hay.drop i))

structure Paragraph where
  text : List Char
  startChar : ℕ
deriving Repr, DecidableEq, Inhabited

/-- One iteration of the `for (const part of parts)` loop in
`splitIntoParagraphs`; the state is the paragraphs so far and `currentPos`. -/
def paraLocStep (text : List Char) (st : List Paragraph × ℕ) (part : List Char) :
    List Paragraph × ℕ :=
  let trimmed := trim part
  let st' :=
    if 0 < trimmed.length then
      (st.1 ++ [{ text := trimmed, startChar := (indexOfFrom text part st.2).getD st.2 }], st.2)
    else st
  (st'.1, st'.2 + part.length + 2)

/-- `splitIntoParagraphs`. -/
def splitIntoParagraphs (text : List Char) : List Paragraph :=
  ((paraSplit text).foldl (paraLocStep text) ([], 0)).1

/-- The `[.!?]\s+([^.!?]+)$` match on the tail window in `getOverlapText`:
the capture group, when the regex matches. -/
def sentenceTailMatch (s : List Char) : Option (List Char) :=
  match s.reverse.findIdx? isPunct with
  | none => none
  | some j =>
    let i := s.length - 1 - j
    let after := s.drop (i + 1)
    match after.head? with
    | none => none
    | some c =>
      if isWs c then
        let run := after.takeWhile isWs
        let grp := after.drop run.length
        if grp.isEmpty then
          if 2 ≤ run.length then some (run.drop (run.length - 1)) else none
        else some grp
      else none

/-- The backwards word loop of `getOverlapText`: the shortest suffix of the
word list whose space-joined length reaches `ov`, else the join of all words. -/
def pickSuffix (ov : ℕ) : List (List Char) → List Char
  | [] => []
  | [w] => w
  | w :: v :: ws =>
    let r := pickSuffix ov (v :: ws)
    if ov ≤ r.length then r else joinSp (w :: v :: ws)

/-- `getOverlapText`. -/
def getOverlapText (text : List Char) (overlapSize : ℕ) : List Char :=
  if text.length ≤ overlapSize then text
  else
    let tail := sliceNeg text (overlapSize * 2)
    let viaSentence : Option (List Char) :=
      match sentenceTailMatch tail with
      | some grp => if overlapSize ≤ 2 * grp.length then some grp else none
      | none => none
    match viaSentence with
    | some g => g
    | none =>
      let result := pickSuffix overlapSize (splitWs tail)
      if result.isEmpty then sliceNeg text overlapSize else result

/-- Mutable loop state of `chunkText`. -/
structure ChunkState where
  chunks : List Chunk
  currentChunk : List Char
  currentStartChar : ℕ
  chunkIndex : ℕ
deriving Repr, DecidableEq

/-- Loop state of the inner sentence loop for an oversized paragraph. -/
structure SentState where
  chunks : List Chunk
  chunkIndex : ℕ
  sentenceChunk : List Char
  sentenceStart : ℕ
deriving Repr, DecidableEq

/-- One iteration of the `for (const sentence of sentences)` loop. -/
def sentenceStep (opts : ChunkOptions) (ss : SentState) (sentence : List Char) : SentState :=
  let ss1 :=
    if 0 < ss.sentenceChunk.length ∧ opts.maxSize < ss.sentenceChunk.length + sentence.length then
      let trimmed := trim ss.sentenceChunk
      let pushed :=
        if opts.minSize ≤ trimmed.length then
          (ss.chunks ++ [{ text := trimmed, chunkIndex := ss.chunkIndex,
                           startChar := ss.sentenceStart,
                           endChar := ss.sentenceStart + ss.sentenceChunk.length }],
           ss.chunkIndex + 1)
        else (ss.chunks, ss.chunkIndex)
      let overlapText := getOverlapText ss.sentenceChunk opts.overlap
      { chunks := pushed.1, chunkIndex := pushed.2
        sentenceStart := ss.sentenceStart + ss.sentenceChunk.length - overlapText.length
        sentenceChunk := overlapText }
    else ss
  { ss1 with sentenceChunk := ss1.sentenceChunk ++ sentence ++ [' '] }

/-- The leading block of the paragraph loop body: if the buffer is non-empty
and adding the paragraph would exceed `maxSize`, finalize it (emitting only
when the trimmed length reaches `minSize`) and seed the next buffer with the
overlap tail. -/
def maybeFinalizeForPara (opts : ChunkOptions) (st : ChunkState) (paraWithNewlineLen : ℕ) :
    ChunkState :=
  if 0 < st.currentChunk.length ∧ opts.maxSize < st.currentChunk.length + paraWithNewlineLen then
    let trimmed := trim st.currentChunk
    let pushed :=
      if opts.minSize ≤ trimmed.length then
        (st.chunks ++ [{ text := trimmed, chunkIndex := st.chunkIndex,
                         startChar := st.currentStartChar,
                         endChar := st.currentStartChar + st.currentChunk.length }],
         st.chunkIndex + 1)
      else (st.chunks, st.chunkIndex)
    let overlapText := getOverlapText st.currentChunk opts.overlap
    { chunks := pushed.1, chunkIndex := pushed.2
      currentStartChar := st.currentStartChar + st.currentChunk.length - overlapText.length
      currentChunk := overlapText }
  else st

/-- The flush before sentence-splitting an oversized paragraph: `// First,
finalize any existing chunk`. -/
def flushBeforeSentences (opts : ChunkOptions) (st : ChunkState) (paraStart : ℕ) : ChunkState :=
  if opts.minSize ≤ (trim st.currentChunk).length then
    { chunks := st.chunks ++ [{ text := trim st.currentChunk, chunkIndex := st.chunkIndex,
                                startChar := st.currentStartChar,
                                endChar := st.currentStartChar + st.currentChunk.length }]
      chunkIndex := st.chunkIndex + 1, currentChunk := [], currentStartChar := paraStart }
  else st

/-- One iteration of the `for (const para of paragraphs)` loop. -/
def paraStep (opts : ChunkOptions) (st : ChunkState) (para : Paragraph) : ChunkState :=
  let paraWithNewline := para.text ++ ['\n', '\n']
  let st1 := maybeFinalizeForPara opts st paraWithNewline.length
  if opts.maxSize < paraWithNewline.length then
    let st2 := flushBeforeSentences opts st1 para.startChar
    let ssFinal := (splitIntoSentences para.text).foldl (sentenceStep opts)
      { chunks := st2.chunks, chunkIndex := st2.chunkIndex,
        sentenceChunk := [], sentenceStart := para.startChar }
    { chunks := ssFinal.chunks, chunkIndex := ssFinal.chunkIndex,
      currentChunk := ssFinal.sentenceChunk, currentStartChar := ssFinal.sentenceStart }
  else
    let st2 := if st1.currentChunk.length = 0 then { st1 with currentStartChar := para.startChar } else st1
    let st3 := { st2 with currentChunk := st2.currentChunk ++ paraWithNewline }
    if opts.targetSize ≤ st3.currentChunk.length then
      { chunks := st3.chunks ++ [{ text := trim st3.currentChunk, chunkIndex := st3.chunkIndex,
                                   startChar := st3.currentStartChar,
                                   endChar := st3.currentStartChar + st3.currentChunk.length }]
        chunkIndex := st3.chunkIndex + 1, currentChunk := [], currentStartChar := st3.currentStartChar }
    else st3

/-- The final-merge branch: `lastChunk.text = lastChunk.text + "\n\n" + finalTrimmed;
lastChunk.endChar = currentStartChar + currentChunk.length` applied to the last
element of the chunk list. -/
def mergeLast (chunks : List Chunk) (finalTrimmed : List Char) (newEnd : ℕ) : List Chunk :=
  match chunks with
  | [] => []
  | [c] => [{ c with text := c.text ++ '\n' :: '\n' :: finalTrimmed, endChar := newEnd }]
  | c :: c2 :: rest => c :: mergeLast (c2 :: rest) finalTrimmed newEnd

/-- The empty initial state of `chunkText`'s paragraph loop. -/
def initChunkState : ChunkState :=
  { chunks := [], currentChunk := [], currentStartChar := 0, chunkIndex := 0 }

/-- `chunkText`. -/
def chunkText (text : List Char) (opts : ChunkOptions) : List Chunk :=
  if (trim text).isEmpty then []
  else
    let normalized := normalizeNewlines text
    let st := (splitIntoParagraphs normalized).foldl (paraStep opts) initChunkState
    let finalTrimmed := trim st.currentChunk
    if 0 < finalTrimmed.length then
      if finalTrimmed.length < opts.minSize ∧ 0 < st.chunks.length then
        mergeLast st.chunks finalTrimmed (st.currentStartChar + st.currentChunk.length)
      else
        st.chunks ++ [{ text := finalTrimmed, chunkIndex := st.chunkIndex,
                        startChar := st.currentStartChar,
                        endChar := st.currentStartChar + st.currentChunk.length }]
    else st.chunks

/-! ## Concrete example inputs used by witnesses and counterexamples -/

/-- A constant external sentiment classifier (the chunker treats the
collaborator as a black box; none of the claims concern its output). -/
def constClassify : List Char → SentimentLabel × ℚ := fun _ => (SentimentLabel.neutral, 0)

/-- Build an enriched segment with explicit prosody for chunker tests. -/
def exSeg (t : List Char) (off dur pause : ℚ) (idx : ℕ) : EnrichedSegment :=
  { text := t, offset := off, duration := dur, segmentIndex := idx,
    prosody := { wordsPerMinute := 0, pauseBefore := pause, relativeSpeed := 1, emphasisScore := 1 } }

/-- Two short segments separated by a 99-second gap: each lasts 1000 ms, the
second starts at 100000 ms. -/
def ex3segs : List EnrichedSegment :=
  [exSeg "a".toList 0 1000 0 0, exSeg "b".toList 100000 1000 99000 1]

/-- A transcript whose first segment has no words. -/
def exC2segs : List TranscriptSegment :=
  [{ text := "".toList, offset := 0, duration := 1000 },
   { text := "hi".toList, offset := 1000, duration := 1000 }]

/-- Options violating the `ChunkOptions` invariant: `minSize (500) > maxSize (10)`
(the remaining fields are the documented defaults). -/
def exOpts1 : ChunkOptions := { targetSize := 1000, minSize := 500, maxSize := 10, overlap := 100 }

/-- A short paragraph followed by an oversized one. -/
def ex4text : List Char := "abc.\n\nddddddddddd".toList

/-- Valid options (`minSize ≤ targetSize ≤ maxSize`, `overlap < minSize`) for the
coverage counterexample. -/
def exOpts4 : ChunkOptions := { targetSize := 10, minSize := 8, maxSize := 12, overlap := 2 }

/-- Four paragraphs separated by 12-character whitespace runs; the last
paragraph "X" also occurs inside the second one, which makes
`splitIntoParagraphs`' `indexOf` scan (whose `currentPos` undercounts long
separators) mislocate it. -/
def ex6text : List Char := "a\n          \ncX\n          \nd\n          \nX".toList

/-- Valid options (`minSize ≤ targetSize ≤ maxSize`, `overlap < minSize`) that
emit every paragraph as its own chunk. -/
def exOpts6 : ChunkOptions := { targetSize := 1, minSize := 1, maxSize := 100, overlap := 0 }

/-- Like `ex6text` but with a third paragraph `"dd"` long enough to be pushed
on its own: the mislocated final paragraph `"X"` then stays in the buffer,
trims below `minSize`, and the final merge rewrites the last chunk's
`endChar` from the mislocated buffer start. -/
def ex6btext : List Char := "a\n          \ncX\n          \ndd\n          \nX".toList

/-- Valid options (`minSize ≤ targetSize ≤ maxSize`, `overlap < minSize`) for
the merge-path regression. -/
def exOpts6b : ChunkOptions := { targetSize := 4, minSize := 2, maxSize := 100, overlap := 1 }

/-- An open group state holding one two-word segment. -/
def exC7state : GroupState :=
  { chunks := [], current := [exSeg "hello world".toList 0 2000 0 0],
    currentWordCount := 2, currentDuration := 2000 }

/-- An incoming segment preceded by a 3000 ms pause. -/
def exC7seg : EnrichedSegment := exSeg "bye".toList 5000 1000 3000 1

/-- Group options with a word target low enough that two words meet the
natural-break floor. -/
def exC7opts : GroupOptions := { maxChunkDuration := 60000, pauseThreshold := 1000, targetWordCount := 1 }

/-- Sum of the durations of the segments named by a chunk's `segmentIndices`. -/
def durSumIdx (segs : List EnrichedSegment) (idxs : List ℕ) : ℚ :=
  (idxs.map (fun i => (segs.getD i default).duration)).sum

/-- Sum of the durations of a member list. -/
def durSum (l : List EnrichedSegment) : ℚ := (l.map (fun s => s.duration)).sum

/-- Invariant carried through `groupSegmentsByProsody`'s fold for the
duration-cap property: the running duration mirrors the member durations, the
members are faithfully indexed into `segs`, the open chunk respects the cap
(or is a single oversized segment), and every emitted chunk does too. -/
def GroupInv (segs : List EnrichedSegment) (o : GroupOptions) (st : GroupState) : Prop :=
  st.currentDuration = durSum st.current ∧
  (∀ s ∈ st.current, segs.getD s.segmentIndex default = s) ∧
  (st.current = [] ∨ durSum st.current ≤ o.maxChunkDuration ∨
    ∃ s, st.current = [s] ∧ o.maxChunkDuration < s.duration) ∧
  (∀ c ∈ st.chunks, durSumIdx segs c.segmentIndices ≤ o.maxChunkDuration ∨
    ∃ j, c.segmentIndices = [j] ∧ o.maxChunkDuration < (segs.getD j default).duration)

/-- Invariant of `chunkText`'s paragraph loop: the chunk indices collected so
far are exactly `0, …, chunkIndex - 1`. -/
def ChunkIdxInv (st : ChunkState) : Prop :=
  st.chunks.map (fun c => c.chunkIndex) = List.range st.chunkIndex

/-- The same invariant for the inner sentence loop. -/
def SentIdxInv (ss : SentState) : Prop :=
  ss.chunks.map (fun c => c.chunkIndex) = List.range ss.chunkIndex

/-! ## Helper lemmas -/

theorem jsRound_intCast (n : ℤ) : jsRound (n : ℚ) = n := by
  have h : ⌊(n : ℚ) + 1/2⌋ = n := by
    rw [Int.floor_eq_iff]
    constructor
    · linarith [show (0:ℚ) ≤ 1/2 by norm_num]
    · linarith [show (1:ℚ)/2 < 1 by norm_num]
  rw [jsRound, h]

theorem jsRound_zero : jsRound 0 = 0 := by
  simpa using jsRound_intCast 0

theorem jsRound_one : jsRound 1 = 1 := by
  simpa using jsRound_intCast 1

theorem round2_zero : round2 0 = 0 := by
  rw [round2]
  norm_num [jsRound_zero]

theorem round2_one : round2 1 = 1 := by
  have h : (1 : ℚ) * 100 = ((100 : ℤ) : ℚ) := by norm_num
  rw [round2, h, jsRound_intCast]
  norm_num

theorem calcPM_enriched_getD (segs : List TranscriptSegment) (i : ℕ) (hi : i < segs.length) :
    (calculateProsodyMetrics segs).1.getD i default = enrichAt segs i := by
  have hne : ¬ segs.isEmpty := by
    rw [List.isEmpty_iff]
    exact List.ne_nil_of_length_pos (by omega)
  simp only [calculateProsodyMetrics, if_neg hne]
  rw [List.getD_eq_getElem?_getD, List.getElem?_map, List.getElem?_range hi]
  rfl

theorem totalDurationOf_nonneg (segs : List TranscriptSegment)
    (hdur : ∀ s ∈ segs, 0 ≤ s.duration) : 0 ≤ totalDurationOf segs := by
  apply List.sum_nonneg
  intro x hx
  rcases List.mem_map.1 hx with ⟨s, hs, rfl⟩
  exact hdur s hs

theorem wpmRawAt_degenerate (segs : List TranscriptSegment) (i : ℕ)
    (h : wordCountOf (segs.getD i default).text = 0 ∨ (segs.getD i default).duration = 0) :
    wpmRawAt segs i = 0 := by
  simp only [wpmRawAt]
  rcases h with h | h
  · rw [h]
    split
    · simp
    · rfl
  · rw [h]
    norm_num

theorem buildChunk_segmentIndices (o : GroupOptions) (cl : List Char → SentimentLabel × ℚ)
    (cur : List EnrichedSegment) :
    (buildChunk o cl cur).segmentIndices = cur.map (fun s => s.segmentIndex) := rfl

theorem groupStep_flat (o : GroupOptions) (cl : List Char → SentimentLabel × ℚ)
    (st : GroupState) (seg : EnrichedSegment) :
    ((groupStep o cl st seg).chunks.map (fun c => c.segmentIndices)).flatten
      ++ (groupStep o cl st seg).current.map (fun s => s.segmentIndex)
    = (st.chunks.map (fun c => c.segmentIndices)).flatten
      ++ st.current.map (fun s => s.segmentIndex) ++ [seg.segmentIndex] := by
  simp only [groupStep, finalizeState]
  split
  · split
    · simp_all [List.isEmpty_iff]
    · simp [buildChunk]
  · simp

theorem foldl_group_flat (o : GroupOptions) (cl : List Char → SentimentLabel × ℚ)
    (l : List EnrichedSegment) :
    ∀ st : GroupState,
      ((l.foldl (groupStep o cl) st).chunks.map (fun c => c.segmentIndices)).flatten
        ++ (l.foldl (groupStep o cl) st).current.map (fun s => s.segmentIndex)
      = (st.chunks.map (fun c => c.segmentIndices)).flatten
        ++ st.current.map (fun s => s.segmentIndex) ++ l.map (fun s => s.segmentIndex) := by
  induction l with
  | nil => intro st; simp
  | cons a l ih =>
    intro st
    calc ((l.foldl (groupStep o cl) (groupStep o cl st a)).chunks.map (fun c => c.segmentIndices)).flatten
          ++ (l.foldl (groupStep o cl) (groupStep o cl st a)).current.map (fun s => s.segmentIndex)
        = ((groupStep o cl st a).chunks.map (fun c => c.segmentIndices)).flatten
          ++ (groupStep o cl st a).current.map (fun s => s.segmentIndex)
          ++ l.map (fun s => s.segmentIndex) := ih (groupStep o cl st a)
      _ = _ := by rw [groupStep_flat]; simp

theorem finalize_flat (o : GroupOptions) (cl : List Char → SentimentLabel × ℚ) (st : GroupState) :
    ((finalizeState o cl st).chunks.map (fun c => c.segmentIndices)).flatten
    = (st.chunks.map (fun c => c.segmentIndices)).flatten
      ++ st.current.map (fun s => s.segmentIndex) := by
  simp only [finalizeState]
  split
  · simp_all [List.isEmpty_iff]
  · simp [buildChunk]

theorem group_flat (segs : List EnrichedSegment) (o : GroupOptions)
    (cl : List Char → SentimentLabel × ℚ) :
    ((groupSegmentsByProsody segs o cl).map (fun c => c.segmentIndices)).flatten
    = segs.map (fun s => s.segmentIndex) := by
  unfold groupSegmentsByProsody
  rw [finalize_flat]
  have h := foldl_group_flat o cl segs initGroupState
  simpa [initGroupState] using h

theorem finalize_indices_ne (o : GroupOptions) (cl : List Char → SentimentLabel × ℚ)
    (st : GroupState) (h : ∀ c ∈ st.chunks, c.segmentIndices ≠ []) :
    ∀ c ∈ (finalizeState o cl st).chunks, c.segmentIndices ≠ [] := by
  simp only [finalizeState]
  split
  · exact h
  · intro c hc
    rcases List.mem_append.1 hc with h1 | h1
    · exact h c h1
    · rcases List.mem_singleton.1 h1 with rfl
      simp_all [buildChunk, List.isEmpty_iff]

theorem foldl_group_indices_ne (o : GroupOptions) (cl : List Char → SentimentLabel × ℚ)
    (l : List EnrichedSegment) :
    ∀ st : GroupState, (∀ c ∈ st.chunks, c.segmentIndices ≠ []) →
      ∀ c ∈ (l.foldl (groupStep o cl) st).chunks, c.segmentIndices ≠ [] := by
  induction l with
  | nil => intro st h; exact h
  | cons a l ih =>
    intro st h
    refine ih (groupStep o cl st a) ?_
    intro c hc
    simp only [groupStep] at hc
    split at hc
    · exact finalize_indices_ne o cl st h c hc
    · exact h c hc

theorem durSumIdx_map (segs : List EnrichedSegment) (cur : List EnrichedSegment)
    (h : ∀ s ∈ cur, segs.getD s.segmentIndex default = s) :
    durSumIdx segs (cur.map (fun s => s.segmentIndex)) = durSum cur := by
  unfold durSumIdx durSum
  rw [List.map_map]
  congr 1
  apply List.map_congr_left
  intro s hs
  simp only [Function.comp_apply]
  rw [h s hs]

theorem groupStep_inv (segs : List EnrichedSegment) (o : GroupOptions)
    (cl : List Char → SentimentLabel × ℚ) (st : GroupState) (seg : EnrichedSegment)
    (hseg : segs.getD seg.segmentIndex default = seg) (hinv : GroupInv segs o st) :
    GroupInv segs o (groupStep o cl st seg) := by
  obtain ⟨h1, h2, h3, h4⟩ := hinv
  simp only [groupStep, finalizeState]
  split
  · rename_i hcond
    split
    · rename_i hemp
      exact absurd hemp hcond.1
    · refine ⟨by simp [durSum], ?_, ?_, ?_⟩
      · intro s hs
        simp only [List.nil_append, List.mem_singleton] at hs
        subst hs
        exact hseg
      · refine Or.inr ?_
        rcases le_or_lt (durSum [seg]) o.maxChunkDuration with hle | hlt
        · exact Or.inl hle
        · refine Or.inr ⟨seg, rfl, ?_⟩
          simpa [durSum] using hlt
      · intro c hc
        rcases List.mem_append.1 hc with hold | hnew
        · exact h4 c hold
        · rcases List.mem_singleton.1 hnew with rfl
          rw [buildChunk_segmentIndices, durSumIdx_map segs st.current h2]
          rename_i hemp
          have hcur : st.current ≠ [] := by
            intro hnil
            exact hemp (by simp [hnil])
          rcases h3 with hnil | hle | ⟨s, hs, hgt⟩
          · exact absurd hnil hcur
          · exact Or.inl hle
          · refine Or.inr ⟨s.segmentIndex, by rw [hs]; rfl, ?_⟩
            rw [h2 s (by rw [hs]; exact List.mem_singleton_self s)]
            exact hgt
  · rename_i hcond
    refine ⟨by simp [durSum, h1], ?_, ?_, h4⟩
    · intro s hs
      rcases List.mem_append.1 hs with hold | hnew
      · exact h2 s hold
      · rcases List.mem_singleton.1 hnew with rfl
        exact hseg
    · rcases List.eq_nil_or_concat' st.current with hnil | hne
      · refine Or.inr ?_
        rw [hnil]
        rcases le_or_lt (durSum [seg]) o.maxChunkDuration with hle | hlt
        · exact Or.inl (by simpa using hle)
        · refine Or.inr ⟨seg, by simp, ?_⟩
          simpa [durSum] using hlt
      · have hcur : ¬ st.current.isEmpty := by
          rcases hne with ⟨l, a, hla⟩
          simp [hla]
        have hnodur : ¬ o.maxChunkDuration < st.currentDuration + seg.duration := by
          intro hd
          exact hcond ⟨hcur, Or.inl hd⟩
        refine Or.inr (Or.inl ?_)
        have : durSum (st.current ++ [seg]) = st.currentDuration + seg.duration := by
          simp [durSum, h1]
        rw [this]
        exact le_of_not_lt hnodur

theorem foldl_group_inv (segs : List EnrichedSegment) (o : GroupOptions)
    (cl : List Char → SentimentLabel × ℚ) (l : List EnrichedSegment) :
    ∀ st : GroupState, (∀ s ∈ l, segs.getD s.segmentIndex default = s) →
      GroupInv segs o st → GroupInv segs o (l.foldl (groupStep o cl) st) := by
  induction l with
  | nil => intro st _ h; exact h
  | cons a l ih =>
    intro st hmem hinv
    exact ih (groupStep o cl st a) (fun s hs => hmem s (List.mem_cons_of_mem a hs))
      (groupStep_inv segs o cl st a (hmem a (List.mem_cons_self a l)) hinv)

theorem finalize_inv_chunks (segs : List EnrichedSegment) (o : GroupOptions)
    (cl : List Char → SentimentLabel × ℚ) (st : GroupState) (hinv : GroupInv segs o st) :
    ∀ c ∈ (finalizeState o cl st).chunks,
      durSumIdx segs c.segmentIndices ≤ o.maxChunkDuration ∨
      ∃ j, c.segmentIndices = [j] ∧ o.maxChunkDuration < (segs.getD j default).duration := by
  obtain ⟨h1, h2, h3, h4⟩ := hinv
  simp only [finalizeState]
  split
  · exact h4
  · rename_i hemp
    intro c hc
    rcases List.mem_append.1 hc with hold | hnew
    · exact h4 c hold
    · rcases List.mem_singleton.1 hnew with rfl
      rw [buildChunk_segmentIndices, durSumIdx_map segs st.current h2]
      have hcur : st.current ≠ [] := by
        intro hnil
        exact hemp (by simp [hnil])
      rcases h3 with hnil | hle | ⟨s, hs, hgt⟩
      · exact absurd hnil hcur
      · exact Or.inl hle
      · refine Or.inr ⟨s.segmentIndex, by rw [hs]; rfl, ?_⟩
        rw [h2 s (by rw [hs]; exact List.mem_singleton_self s)]
        exact hgt

/-! ## Claims -/

/-- Claim C1 (status: code bug in the source). The spec requires `chunkText`
to fail fast with a configuration error when the `ChunkOptions` invariant is
violated (here `minSize = 500 > 10 = maxSize`), returning no chunk sequence.
The code performs no validation at all: on this failing input it silently
returns a chunk sequence (a single chunk, which moreover is far below
`minSize`). -/
theorem chunkText_no_options_validation :
    chunkText "Hello".toList exOpts1
      = [{ text := "Hello".toList, chunkIndex := 0, startChar := 0, endChar := 7 }] := by
  decide

/-- Claim C4 (status: code bug in the source). The spec's coverage property
requires the chunk ranges to cover the normalized text up to whitespace.  On
this input the short first paragraph is finalized below `minSize` when the
oversized second paragraph arrives: it is discarded (only its overlap tail, a
single newline, is kept), so the only returned chunk starts at character 6
while characters 0–5 hold the non-whitespace text `"abc."`. -/
theorem chunkText_coverage_gap :
    chunkText ex4text exOpts4
      = [{ text := "ddddddddddd".toList, chunkIndex := 0, startChar := 6, endChar := 18 }] ∧
    (normalizeNewlines ex4text).take 6 = "abc.\n\n".toList ∧
    trim ((normalizeNewlines ex4text).take 6) ≠ [] := by
  decide

/-- Counterexample to claim C6 as stated: every offset conjunct of the claim
fails on valid options (`minSize ≤ targetSize ≤ maxSize`, `overlap < minSize`),
while the chunk indices stay `0..n-1`.  On `ex6text` the `startChar` sequence
`0, 13, 27, 14` regresses (and `endChar` `3, 17, 30, 17` too), because
`splitIntoParagraphs` locates each paragraph with `indexOf(part, currentPos)`
while advancing `currentPos` by only `part.length + 2` — long whitespace
separators make it undercount, and the final paragraph `"X"` is found inside
the earlier paragraph `"cX"`.  On `ex6btext` that same mislocated `"X"`
remains as an undersized final buffer and the closing merge rewrites the last
chunk's `endChar` to `14 + 3 = 17 < 27 = startChar`, refuting even the
per-chunk `endChar ≥ startChar` conjunct. -/
theorem chunkText_offsets_regress_cex :
    ((chunkText ex6text exOpts6).map (fun c => c.chunkIndex) = [0, 1, 2, 3]) ∧
    ((chunkText ex6text exOpts6).map (fun c => c.startChar) = [0, 13, 27, 14]) ∧
    ((chunkText ex6text exOpts6).map (fun c => c.endChar) = [3, 17, 30, 17]) ∧
    ¬ List.Chain' (· ≤ ·) ((chunkText ex6text exOpts6).map (fun c => c.startChar)) ∧
    ¬ List.Chain' (· ≤ ·) ((chunkText ex6text exOpts6).map (fun c => c.endChar)) ∧
    ((chunkText ex6btext exOpts6b).map (fun c => (c.chunkIndex, c.startChar, c.endChar))
      = [(0, 0, 7), (1, 27, 17)]) ∧
    ¬ (∀ c ∈ chunkText ex6btext exOpts6b, c.startChar ≤ c.endChar) := by
  refine ⟨by decide, by decide, by decide, ?_, ?_, by decide, ?_⟩
  · have h : (chunkText ex6text exOpts6).map (fun c => c.startChar) = [0, 13, 27, 14] := by decide
    rw [h]
    simp [List.chain'_cons, List.chain'_singleton]
  · have h : (chunkText ex6text exOpts6).map (fun c => c.endChar) = [3, 17, 30, 17] := by decide
    rw [h]
    simp [List.chain'_cons, List.chain'_singleton]
  · intro hall
    have hmem : (chunkText ex6btext exOpts6b).getD 1 default ∈ chunkText ex6btext exOpts6b := by
      decide
    have hc := hall _ hmem
    have hs : ((chunkText ex6btext exOpts6b).getD 1 default).startChar = 27 := by decide
    have he : ((chunkText ex6btext exOpts6b).getD 1 default).endChar = 17 := by decide
    rw [hs, he] at hc
    omega

/-- Counterexample to claim C2 as stated: in `exC2segs` the first segment has
zero words, yet its `emphasisScore` is `0`, not the claimed sentinel `1` (the
code guards the per-word duration with `wordCount > 0 ? … : 0`, and
`0 / avgDurationPerWordOverall = 0`). -/
theorem prosody_zero_word_emphasis_cex :
    wordCountOf (exC2segs.getD 0 default).text = 0 ∧
    ((calculateProsodyMetrics exC2segs).1.getD 0 default).prosody.emphasisScore = 0 ∧
    ((calculateProsodyMetrics exC2segs).1.getD 0 default).prosody.emphasisScore ≠ 1 := by
  refine ⟨by decide, ?_, ?_⟩ <;>
    norm_num +decide [calculateProsodyMetrics, exC2segs, enrichAt, wordCountOf, splitWs,
      splitWsGo, trim, isWs, totalWordsOf, totalDurationOf, averageWpmRaw, wpmRawAt,
      pauseBeforeAt, jsRound, round2, List.range_succ]

/-- Claim C2 (corrected). A segment with zero words or zero duration receives
`wordsPerMinute = 0`; its `emphasisScore` is the sentinel `1` only in the
degenerate case where the transcript has words but zero total duration —
otherwise it is `0` (not `1` as claimed).  Every division in the code is
guarded, so these sentinel values replace any undefined ratio. -/
theorem prosody_degenerate_defaults (segs : List TranscriptSegment) (i : ℕ)
    (hdur : ∀ s ∈ segs, 0 ≤ s.duration) (hi : i < segs.length)
    (h : wordCountOf (segs.getD i default).text = 0 ∨ (segs.getD i default).duration = 0) :
    ((calculateProsodyMetrics segs).1.getD i default).prosody.wordsPerMinute = 0 ∧
    ((calculateProsodyMetrics segs).1.getD i default).prosody.emphasisScore =
      (if 0 < totalWordsOf segs ∧ totalDurationOf segs = 0 then 1 else 0) := by
  rw [calcPM_enriched_getD segs i hi]
  simp only [enrichAt]
  constructor
  · rw [wpmRawAt_degenerate segs i h, jsRound_zero]
  · have hD : (if 0 < wordCountOf (segs.getD i default).text
        then (segs.getD i default).duration / ((wordCountOf (segs.getD i default).text : ℕ) : ℚ)
        else 0) = 0 := by
      rcases h with h | h
      · rw [h]
        simp
      · rw [h]
        split <;> simp
    rw [hD]
    have htd : 0 ≤ totalDurationOf segs := totalDurationOf_nonneg segs hdur
    by_cases htw : 0 < totalWordsOf segs
    · by_cases htd0 : totalDurationOf segs = 0
      · have hrhs : (if 0 < totalWordsOf segs ∧ totalDurationOf segs = 0 then (1:ℚ) else 0) = 1 :=
          if_pos ⟨htw, htd0⟩
        rw [hrhs, if_pos htw, htd0]
        norm_num [round2_one]
      · have hrhs : (if 0 < totalWordsOf segs ∧ totalDurationOf segs = 0 then (1:ℚ) else 0) = 0 :=
          if_neg (fun hand => htd0 hand.2)
        have hpos : 0 < totalDurationOf segs / ((totalWordsOf segs : ℕ) : ℚ) :=
          div_pos (lt_of_le_of_ne htd (Ne.symm htd0)) (by exact_mod_cast htw)
        rw [hrhs, if_pos htw, if_pos hpos]
        norm_num [round2_zero]
    · have hrhs : (if 0 < totalWordsOf segs ∧ totalDurationOf segs = 0 then (1:ℚ) else 0) = 0 :=
        if_neg (fun hand => htw hand.1)
      rw [hrhs, if_neg htw]
      norm_num [round2_zero]

/-- Witness for the amended C2 at a concrete transcript: the zero-word first
segment of `exC2segs` gets `wordsPerMinute = 0` and `emphasisScore = 0`
(the transcript has words and positive total duration). -/
theorem prosody_degenerate_defaults_witness :
    (∀ s ∈ exC2segs, 0 ≤ s.duration) ∧ 0 < exC2segs.length ∧
    (wordCountOf (exC2segs.getD 0 default).text = 0 ∨ (exC2segs.getD 0 default).duration = 0) ∧
    ((calculateProsodyMetrics exC2segs).1.getD 0 default).prosody.wordsPerMinute = 0 ∧
    ((calculateProsodyMetrics exC2segs).1.getD 0 default).prosody.emphasisScore =
      (if 0 < totalWordsOf exC2segs ∧ totalDurationOf exC2segs = 0 then 1 else 0) := by
  have hdur : ∀ s ∈ exC2segs, 0 ≤ s.duration := by
    intro s hs
    simp only [exC2segs, List.mem_cons, List.not_mem_nil, or_false] at hs
    rcases hs with rfl | rfl <;> norm_num
  have hlen : (0 : ℕ) < exC2segs.length := by simp [exC2segs]
  have hdeg : wordCountOf (exC2segs.getD 0 default).text = 0 ∨
      (exC2segs.getD 0 default).duration = 0 := Or.inl (by decide)
  exact ⟨hdur, hlen, hdeg, prosody_degenerate_defaults exC2segs 0 hdur hlen hdeg⟩

/-- Counterexample to claim C3 as stated: on `ex3segs` (two 1000 ms segments
separated by a 99 s gap, default options) the code emits a single chunk with
two segments whose `endTime - startTime = 101000 > 60000 = maxChunkDuration`,
although neither segment's own duration exceeds the cap — the loop caps only
the accumulated sum of durations, which ignores inter-segment gaps. -/
theorem group_duration_cap_cex :
    (groupSegmentsByProsody ex3segs defaultGroupOptions constClassify).map
        (fun c => (c.endTime - c.startTime, c.segmentIndices.length)) = [(101000, 2)] ∧
    (∀ s ∈ ex3segs, s.duration ≤ defaultGroupOptions.maxChunkDuration) ∧
    defaultGroupOptions.maxChunkDuration < 101000 := by
  refine ⟨?_, ?_, by norm_num [defaultGroupOptions]⟩
  · norm_num +decide [groupSegmentsByProsody, initGroupState, groupStep, finalizeState,
      buildChunk, ex3segs, exSeg, defaultGroupOptions, constClassify, wordCountOf, splitWs,
      splitWsGo, trim, isWs, joinSp]
  · intro s hs
    simp only [ex3segs, List.mem_cons, List.not_mem_nil, or_false] at hs
    rcases hs with rfl | rfl <;> norm_num [exSeg, defaultGroupOptions]

/-- Claim C3 (corrected). What the loop actually bounds is the total spoken
duration of a chunk — the sum of its member segments' durations — not the
wall-clock span `endTime - startTime`: for inputs whose `segmentIndex` fields
are their positions, every emitted chunk's duration sum is at most
`maxChunkDuration`, except a chunk holding exactly one segment whose own
duration already exceeds the cap. -/
theorem group_duration_cap (segs : List EnrichedSegment) (o : GroupOptions)
    (cl : List Char → SentimentLabel × ℚ) (c : ChunkWithAnalysis)
    (hidx : ∀ i (hi : i < segs.length), segs[i].segmentIndex = i)
    (hc : c ∈ groupSegmentsByProsody segs o cl) :
    durSumIdx segs c.segmentIndices ≤ o.maxChunkDuration ∨
    ∃ j, c.segmentIndices = [j] ∧ o.maxChunkDuration < (segs.getD j default).duration := by
  have hmem : ∀ s ∈ segs, segs.getD s.segmentIndex default = s := by
    intro s hs
    obtain ⟨i, hi, rfl⟩ := List.mem_iff_getElem.1 hs
    rw [hidx i hi]
    exact List.getD_eq_getElem segs default hi
  have hinit : GroupInv segs o initGroupState := by
    refine ⟨by simp [initGroupState, durSum], ?_, ?_, ?_⟩ <;> simp [initGroupState]
  have hfold := foldl_group_inv segs o cl segs initGroupState hmem hinit
  exact finalize_inv_chunks segs o cl _ hfold c hc

/-- Witness for the amended C3 on the concrete input of the counterexample:
the single emitted chunk's duration sum (2000 ms) respects the cap. -/
theorem group_duration_cap_witness :
    (∀ i (hi : i < ex3segs.length), ex3segs[i].segmentIndex = i) ∧
    ((groupSegmentsByProsody ex3segs defaultGroupOptions constClassify).headD default
        ∈ groupSegmentsByProsody ex3segs defaultGroupOptions constClassify) ∧
    (durSumIdx ex3segs
        ((groupSegmentsByProsody ex3segs defaultGroupOptions constClassify).headD default).segmentIndices
        ≤ defaultGroupOptions.maxChunkDuration ∨
      ∃ j, ((groupSegmentsByProsody ex3segs defaultGroupOptions constClassify).headD default).segmentIndices = [j] ∧
        defaultGroupOptions.maxChunkDuration < (ex3segs.getD j default).duration) := by
  have hidx : ∀ i (hi : i < ex3segs.length), ex3segs[i].segmentIndex = i := by
    intro i hi
    have h2 : i < 2 := by simpa [ex3segs] using hi
    interval_cases i <;> rfl
  have hmem : (groupSegmentsByProsody ex3segs defaultGroupOptions constClassify).headD default
      ∈ groupSegmentsByProsody ex3segs defaultGroupOptions constClassify := by
    norm_num +decide [groupSegmentsByProsody, initGroupState, groupStep, finalizeState, buildChunk,
      ex3segs, exSeg, defaultGroupOptions, constClassify, wordCountOf, splitWs, splitWsGo, trim,
      isWs, joinSp]
  exact ⟨hidx, hmem, group_duration_cap ex3segs defaultGroupOptions constClassify _ hidx hmem⟩

/-- Claim C7 (confirmed). If the current chunk is non-empty, its running word
count has reached half the target word count, and the incoming segment's
pause reaches the pause threshold, then `groupSegmentsByProsody`'s loop body
finalizes the current chunk and starts a fresh chunk holding exactly the
incoming segment. -/
theorem groupStep_natural_break (o : GroupOptions) (cl : List Char → SentimentLabel × ℚ)
    (st : GroupState) (seg : EnrichedSegment)
    (h1 : st.current ≠ [])
    (h2 : o.pauseThreshold ≤ seg.prosody.pauseBefore)
    (h3 : o.targetWordCount * (1 / 2) ≤ (st.currentWordCount : ℚ)) :
    groupStep o cl st seg
      = { chunks := st.chunks ++ [buildChunk o cl st.current], current := [seg],
          currentWordCount := wordCountOf seg.text, currentDuration := seg.duration } := by
  have hne : ¬ st.current.isEmpty := by simp [List.isEmpty_iff, h1]
  simp only [groupStep, finalizeState]
  rw [if_pos ⟨hne, Or.inr (Or.inr ⟨h2, h3⟩)⟩, if_neg hne]
  simp

/-- Witness for C7 at a concrete state and segment. -/
theorem groupStep_natural_break_witness :
    exC7state.current ≠ [] ∧
    exC7opts.pauseThreshold ≤ exC7seg.prosody.pauseBefore ∧
    exC7opts.targetWordCount * (1 / 2) ≤ (exC7state.currentWordCount : ℚ) ∧
    groupStep exC7opts constClassify exC7state exC7seg
      = { chunks := exC7state.chunks ++ [buildChunk exC7opts constClassify exC7state.current],
          current := [exC7seg], currentWordCount := wordCountOf exC7seg.text,
          currentDuration := exC7seg.duration } := by
  refine ⟨by simp [exC7state, exSeg], by norm_num [exC7opts, exC7seg, exSeg], by norm_num [exC7opts, exC7state], ?_⟩
  exact groupStep_natural_break exC7opts constClassify exC7state exC7seg
    (by simp [exC7state, exSeg]) (by norm_num [exC7opts, exC7seg, exSeg])
    (by norm_num [exC7opts, exC7state])

/-- Claim C5 (confirmed). When the input segments carry their own position as
`segmentIndex` (as the enrichment step produces them), the concatenation of
`segmentIndices` over the chunks emitted by `groupSegmentsByProsody`, in
emission order, is exactly `0, 1, ..., len(segments) - 1`: every index appears
exactly once, in order, contiguously within chunks. -/
theorem group_segment_conservation (segs : List EnrichedSegment) (o : GroupOptions)
    (cl : List Char → SentimentLabel × ℚ)
    (hidx : ∀ i (hi : i < segs.length), segs[i].segmentIndex = i) :
    ((groupSegmentsByProsody segs o cl).map (fun c => c.segmentIndices)).flatten
      = List.range segs.length := by
  rw [group_flat]
  apply List.ext_getElem
  · simp
  · intro i h1 h2
    simp only [List.getElem_map, List.getElem_range]
    exact hidx i (by simpa using h1)

/-- Witness for C5 on a concrete two-segment input. -/
theorem group_segment_conservation_witness :
    (∀ i (hi : i < ex3segs.length), ex3segs[i].segmentIndex = i) ∧
    ((groupSegmentsByProsody ex3segs defaultGroupOptions constClassify).map
        (fun c => c.segmentIndices)).flatten = List.range ex3segs.length := by
  have h : ∀ i (hi : i < ex3segs.length), ex3segs[i].segmentIndex = i := by
    intro i hi
    have h2 : i < 2 := by simpa [ex3segs] using hi
    interval_cases i <;> rfl
  exact ⟨h, group_segment_conservation ex3segs defaultGroupOptions constClassify h⟩

/-- Claim C10 (confirmed). An empty segment sequence yields an empty chunk
sequence, and every chunk emitted by `groupSegmentsByProsody` contains at
least one segment (`segmentIndices` is non-empty), so the averages inside
`finalizeChunk` are always taken over a non-empty member list. -/
theorem group_chunks_nonempty (segs : List EnrichedSegment) (o : GroupOptions)
    (cl : List Char → SentimentLabel × ℚ) (c : ChunkWithAnalysis)
    (hc : c ∈ groupSegmentsByProsody segs o cl) :
    groupSegmentsByProsody ([] : List EnrichedSegment) o cl = [] ∧ c.segmentIndices ≠ [] := by
  constructor
  · simp [groupSegmentsByProsody, finalizeState, initGroupState]
  · have hfold : ∀ c ∈ (segs.foldl (groupStep o cl) initGroupState).chunks, c.segmentIndices ≠ [] :=
      foldl_group_indices_ne o cl segs initGroupState (by simp [initGroupState])
    exact finalize_indices_ne o cl _ hfold c hc

/-- Witness for C10 on a concrete input. -/
theorem group_chunks_nonempty_witness :
    ((groupSegmentsByProsody ex3segs defaultGroupOptions constClassify).headD default
        ∈ groupSegmentsByProsody ex3segs defaultGroupOptions constClassify) ∧
    (groupSegmentsByProsody ([] : List EnrichedSegment) defaultGroupOptions constClassify = [] ∧
      ((groupSegmentsByProsody ex3segs defaultGroupOptions constClassify).headD default).segmentIndices ≠ []) := by
  have hmem : (groupSegmentsByProsody ex3segs defaultGroupOptions constClassify).headD default
      ∈ groupSegmentsByProsody ex3segs defaultGroupOptions constClassify := by
    norm_num +decide [groupSegmentsByProsody, initGroupState, groupStep, finalizeState, buildChunk,
      ex3segs, exSeg, defaultGroupOptions, constClassify, wordCountOf, splitWs, splitWsGo, trim,
      isWs, joinSp]
  exact ⟨hmem, group_chunks_nonempty ex3segs defaultGroupOptions constClassify _ hmem⟩

theorem averageWpmRaw_eq_spec (segs : List TranscriptSegment)
    (h : 0 ≤ totalDurationOf segs) : averageWpmRaw segs = specAverageWpmRaw segs := by
  unfold averageWpmRaw specAverageWpmRaw
  by_cases h0 : totalDurationOf segs = 0
  · rw [if_neg (by rw [h0]; exact lt_irrefl 0), if_pos h0]
  · rw [if_pos (lt_of_le_of_ne h (Ne.symm h0)), if_neg h0]

theorem wpmRawAt_eq_spec (segs : List TranscriptSegment) (i : ℕ)
    (h : 0 ≤ (segs.getD i default).duration) : wpmRawAt segs i = specWpm segs i := by
  simp only [wpmRawAt, specWpm]
  by_cases h0 : (segs.getD i default).duration = 0
  · rw [h0]
    norm_num
  · have hlt : 0 < (segs.getD i default).duration := lt_of_le_of_ne h (Ne.symm h0)
    rw [if_pos (by positivity), if_neg h0]

theorem specAverageWpmRaw_nonneg (segs : List TranscriptSegment)
    (h : 0 ≤ totalDurationOf segs) : 0 ≤ specAverageWpmRaw segs := by
  unfold specAverageWpmRaw
  split
  · exact le_refl 0
  · positivity

/-- Claim C8 (confirmed). The returned `averageWpm` is the rounded global
words-weighted ratio `totalWords / totalDurationMs × 60000` computed once over
the whole sequence (0 when the total duration is 0) — not the unweighted mean
of per-segment WPM values — and each segment's stored `relativeSpeed` is its
own (unrounded) WPM divided by this unrounded average, the sentinel `1` when
the average is 0, rounded to two decimals at the component boundary. -/
theorem prosody_average_wpm_global (segs : List TranscriptSegment) (i : ℕ)
    (hne : segs ≠ []) (hdur : ∀ s ∈ segs, 0 ≤ s.duration) (hi : i < segs.length) :
    (calculateProsodyMetrics segs).2 = jsRound (specAverageWpmRaw segs) ∧
    ((calculateProsodyMetrics segs).1.getD i default).prosody.relativeSpeed
      = round2 (if specAverageWpmRaw segs = 0 then 1
                else specWpm segs i / specAverageWpmRaw segs) := by
  have htd := totalDurationOf_nonneg segs hdur
  have havg := averageWpmRaw_eq_spec segs htd
  constructor
  · have hemp : ¬ segs.isEmpty := by simp [List.isEmpty_iff, hne]
    simp only [calculateProsodyMetrics, if_neg hemp]
    rw [havg]
  · rw [calcPM_enriched_getD segs i hi]
    simp only [enrichAt]
    rw [havg]
    have hgd : segs.getD i default = segs[i] := List.getD_eq_getElem segs default hi
    have hdi : 0 ≤ (segs.getD i default).duration := by
      rw [hgd]
      exact hdur segs[i] (List.getElem_mem hi)
    have hwpm := wpmRawAt_eq_spec segs i hdi
    by_cases h0 : specAverageWpmRaw segs = 0
    · rw [h0]
      norm_num
    · have hpos : 0 < specAverageWpmRaw segs :=
        lt_of_le_of_ne (specAverageWpmRaw_nonneg segs htd) (Ne.symm h0)
      rw [if_pos hpos, if_neg h0, hwpm]

/-- Witness for C8 on the concrete transcript `exC2segs` at segment 1. -/
theorem prosody_average_wpm_global_witness :
    exC2segs ≠ [] ∧ (∀ s ∈ exC2segs, 0 ≤ s.duration) ∧ 1 < exC2segs.length ∧
    (calculateProsodyMetrics exC2segs).2 = jsRound (specAverageWpmRaw exC2segs) ∧
    ((calculateProsodyMetrics exC2segs).1.getD 1 default).prosody.relativeSpeed
      = round2 (if specAverageWpmRaw exC2segs = 0 then 1
                else specWpm exC2segs 1 / specAverageWpmRaw exC2segs) := by
  have hne : exC2segs ≠ [] := by simp [exC2segs]
  have hdur : ∀ s ∈ exC2segs, 0 ≤ s.duration := by
    intro s hs
    simp only [exC2segs, List.mem_cons, List.not_mem_nil, or_false] at hs
    rcases hs with rfl | rfl <;> norm_num
  have hi : 1 < exC2segs.length := by simp [exC2segs]
  obtain ⟨ha, hb⟩ := prosody_average_wpm_global exC2segs 1 hne hdur hi
  exact ⟨hne, hdur, hi, ha, hb⟩

theorem joinSp_cons_le (x : List Char) (L : List (List Char)) :
    (joinSp (x :: L)).length ≤ x.length + 1 + (joinSp L).length := by
  cases L with
  | nil => simp [joinSp]
  | cons v ws =>
    simp only [joinSp, List.length_append, List.length_cons]
    omega

theorem joinSp_le_tail (x : List Char) (L : List (List Char)) :
    (joinSp L).length ≤ (joinSp (x :: L)).length := by
  cases L with
  | nil => simp [joinSp]
  | cons v ws =>
    simp only [joinSp, List.length_append, List.length_cons]
    omega

theorem joinSp_splitWsGo_le (cs : List Char) :
    ∀ (b : Bool) (acc : List Char),
      (joinSp (splitWsGo b acc cs)).length ≤ acc.length + cs.length := by
  induction cs with
  | nil => intro b acc; simp [splitWsGo, joinSp]
  | cons c rest ih =>
    intro b acc
    simp only [splitWsGo]
    split_ifs with h1 h2
    · have := ih true acc
      simp only [List.length_cons]
      omega
    · have h := joinSp_cons_le acc.reverse (splitWsGo true [] rest)
      have h2 := ih true []
      simp only [List.length_cons]
      simp only [List.length_reverse] at h
      simp only [List.length_nil] at h2
      omega
    · have := ih false (c :: acc)
      simp only [List.length_cons] at this ⊢
      omega

theorem joinSp_splitWs_le (s : List Char) : (joinSp (splitWs s)).length ≤ s.length := by
  have h := joinSp_splitWsGo_le s false []
  simpa [splitWs] using h

theorem joinSp_drop_le (l : List (List Char)) : ∀ k, (joinSp (l.drop k)).length ≤ (joinSp l).length := by
  induction l with
  | nil => intro k; simp
  | cons x L ih =>
    intro k
    cases k with
    | zero => exact le_refl _
    | succ k =>
      calc (joinSp ((x :: L).drop (k + 1))).length = (joinSp (L.drop k)).length := by simp
        _ ≤ (joinSp L).length := ih k
        _ ≤ (joinSp (x :: L)).length := joinSp_le_tail x L

theorem pickSuffix_eq_drop (ov : ℕ) (l : List (List Char)) :
    ∃ k, pickSuffix ov l = joinSp (l.drop k) := by
  induction l with
  | nil => exact ⟨0, rfl⟩
  | cons w ws ih =>
    cases ws with
    | nil => exact ⟨0, rfl⟩
    | cons v ws2 =>
      simp only [pickSuffix]
      split
      · obtain ⟨k, hk⟩ := ih
        exact ⟨k + 1, by simpa using hk⟩
      · exact ⟨0, rfl⟩

theorem pickSuffix_length_le (ov : ℕ) (l : List (List Char)) :
    (pickSuffix ov l).length ≤ (joinSp l).length := by
  obtain ⟨k, hk⟩ := pickSuffix_eq_drop ov l
  rw [hk]
  exact joinSp_drop_le l k

theorem sliceNeg_length_le (s : List Char) (n : ℕ) (h : n ≠ 0) :
    (sliceNeg s n).length ≤ n := by
  simp only [sliceNeg, if_neg h, List.length_drop]
  omega

theorem sentenceTailMatch_length_le (s g : List Char)
    (h : sentenceTailMatch s = some g) : g.length ≤ s.length := by
  simp only [sentenceTailMatch] at h
  split at h
  · exact absurd h (by simp)
  · rename_i j hj
    split at h
    · exact absurd h (by simp)
    · rename_i c hc
      split at h
      · split at h
        · split at h
          · rcases Option.some.inj h with rfl
            have h1 : (((s.drop (s.length - 1 - j + 1)).takeWhile isWs).drop
                (((s.drop (s.length - 1 - j + 1)).takeWhile isWs).length - 1)).length
                ≤ ((s.drop (s.length - 1 - j + 1)).takeWhile isWs).length := by
              rw [List.length_drop]
              omega
            have h2 : ((s.drop (s.length - 1 - j + 1)).takeWhile isWs).length
                ≤ (s.drop (s.length - 1 - j + 1)).length :=
              ( List.takeWhile_prefix isWs).length_le
            have h3 : (s.drop (s.length - 1 - j + 1)).length ≤ s.length := by
              rw [List.length_drop]
              omega
            omega
          · exact absurd h (by simp)
        · rcases Option.some.inj h with rfl
          have h1 : ((s.drop (s.length - 1 - j + 1)).drop
              ((s.drop (s.length - 1 - j + 1)).takeWhile isWs).length).length
              ≤ (s.drop (s.length - 1 - j + 1)).length := by
            rw [List.length_drop]
            omega
          have h2 : (s.drop (s.length - 1 - j + 1)).length ≤ s.length := by
            rw [List.length_drop]
            omega
          omega
      · exact absurd h (by simp)

/-- Claim C9 (confirmed). For every text and positive overlap size, the
overlap string computed by `getOverlapText` has at most `2 × overlap`
characters (every branch — whole-text, sentence-boundary capture, word-suffix
join, raw suffix — is bounded by the `2 × overlap` tail window). -/
theorem getOverlapText_length_le (t : List Char) (ov : ℕ) (h : 1 ≤ ov) :
    (getOverlapText t ov).length ≤ 2 * ov := by
  simp only [getOverlapText]
  split
  · omega
  · have htail : (sliceNeg t (ov * 2)).length ≤ ov * 2 :=
      sliceNeg_length_le t (ov * 2) (by omega)
    rcases hm : sentenceTailMatch (sliceNeg t (ov * 2)) with _ | grp
    · simp only [hm]
      split
      · have h1 := sliceNeg_length_le t ov (by omega)
        omega
      · have h1 := pickSuffix_length_le ov (splitWs (sliceNeg t (ov * 2)))
        have h2 := joinSp_splitWs_le (sliceNeg t (ov * 2))
        omega
    · by_cases hcond : ov ≤ 2 * grp.length
      · simp only [hm, if_pos hcond]
        have h1 := sentenceTailMatch_length_le _ _ hm
        omega
      · simp only [hm, if_neg hcond]
        split
        · have h1 := sliceNeg_length_le t ov (by omega)
          omega
        · have h1 := pickSuffix_length_le ov (splitWs (sliceNeg t (ov * 2)))
          have h2 := joinSp_splitWs_le (sliceNeg t (ov * 2))
          omega

/-- Witness for C9 at a concrete text and overlap size 3. -/
theorem getOverlapText_length_le_witness :
    1 ≤ 3 ∧ (getOverlapText "Hello there. Bye now".toList 3).length ≤ 2 * 3 :=
  ⟨by decide, getOverlapText_length_le "Hello there. Bye now".toList 3 (by decide)⟩

theorem sentenceStep_inv (opts : ChunkOptions) (ss : SentState) (sentence : List Char)
    (h : SentIdxInv ss) : SentIdxInv (sentenceStep opts ss sentence) := by
  simp only [SentIdxInv, sentenceStep] at h ⊢
  split
  · split
    · simp [h, List.range_succ]
    · simpa using h
  · simpa using h

theorem sentFold_inv (opts : ChunkOptions) (l : List (List Char)) :
    ∀ ss : SentState, SentIdxInv ss → SentIdxInv (l.foldl (sentenceStep opts) ss) := by
  induction l with
  | nil => intro ss h; exact h
  | cons s l ih => intro ss h; exact ih (sentenceStep opts ss s) (sentenceStep_inv opts ss s h)

theorem maybeFinalizeForPara_inv (opts : ChunkOptions) (st : ChunkState) (n : ℕ)
    (h : ChunkIdxInv st) : ChunkIdxInv (maybeFinalizeForPara opts st n) := by
  simp only [ChunkIdxInv, maybeFinalizeForPara] at h ⊢
  split
  · split
    · simp [h, List.range_succ]
    · simpa using h
  · exact h

theorem flushBeforeSentences_inv (opts : ChunkOptions) (st : ChunkState) (p : ℕ)
    (h : ChunkIdxInv st) : ChunkIdxInv (flushBeforeSentences opts st p) := by
  simp only [ChunkIdxInv, flushBeforeSentences] at h ⊢
  split
  · simp [h, List.range_succ]
  · exact h

theorem paraStep_inv (opts : ChunkOptions) (st : ChunkState) (para : Paragraph)
    (h : ChunkIdxInv st) : ChunkIdxInv (paraStep opts st para) := by
  have h1 : ChunkIdxInv (maybeFinalizeForPara opts st (para.text ++ ['\n', '\n']).length) :=
    maybeFinalizeForPara_inv opts st _ h
  simp only [paraStep]
  split
  · have h2 : ChunkIdxInv (flushBeforeSentences opts
        (maybeFinalizeForPara opts st (para.text ++ ['\n', '\n']).length) para.startChar) :=
      flushBeforeSentences_inv opts _ _ h1
    have h3 : SentIdxInv
        { chunks := (flushBeforeSentences opts
            (maybeFinalizeForPara opts st (para.text ++ ['\n', '\n']).length) para.startChar).chunks,
          chunkIndex := (flushBeforeSentences opts
            (maybeFinalizeForPara opts st (para.text ++ ['\n', '\n']).length) para.startChar).chunkIndex,
          sentenceChunk := [], sentenceStart := para.startChar } := h2
    have h4 := sentFold_inv opts (splitIntoSentences para.text) _ h3
    exact h4
  · simp only [ChunkIdxInv] at h1 ⊢
    split
    · split
      · simpa [List.range_succ] using h1
      · simpa using h1
    · split
      · simpa [List.range_succ] using h1
      · simpa using h1

theorem paraFold_inv (opts : ChunkOptions) (l : List Paragraph) :
    ∀ st : ChunkState, ChunkIdxInv st → ChunkIdxInv (l.foldl (paraStep opts) st) := by
  induction l with
  | nil => intro st h; exact h
  | cons p l ih => intro st h; exact ih (paraStep opts st p) (paraStep_inv opts st p h)

theorem mergeLast_map_chunkIndex (cs : List Chunk) (ft : List Char) (e : ℕ) :
    (mergeLast cs ft e).map (fun c => c.chunkIndex) = cs.map (fun c => c.chunkIndex) := by
  induction cs with
  | nil => rfl
  | cons c rest ih =>
    cases rest with
    | nil => rfl
    | cons c2 r2 =>
      simp only [mergeLast, List.map_cons]
      rw [show (mergeLast (c2 :: r2) ft e).map (fun c => c.chunkIndex)
          = (c2 :: r2).map (fun c => c.chunkIndex) from ih]
      simp

theorem mergeLast_length (cs : List Chunk) (ft : List Char) (e : ℕ) :
    (mergeLast cs ft e).length = cs.length := by
  induction cs with
  | nil => rfl
  | cons c rest ih =>
    cases rest with
    | nil => rfl
    | cons c2 r2 => simpa [mergeLast] using ih

/-- Claim C6 (corrected). The `chunkIndex` values of the chunks returned by
`chunkText` are exactly `0, …, n-1`, strictly increasing with no gaps or
repeats.  The claim's offset conjuncts all fail on the code (see the
counterexample): `startChar` and `endChar` can each regress across the
sequence, and a final undersized-buffer merge can even produce a chunk with
`endChar < startChar`, so only the index conjunct remains. -/
theorem chunkText_chunk_indices (t : List Char) (opts : ChunkOptions) :
    (chunkText t opts).map (fun c => c.chunkIndex) = List.range ((chunkText t opts).length) := by
  simp only [chunkText]
  split
  · simp
  · have hfold : ChunkIdxInv
        ((splitIntoParagraphs (normalizeNewlines t)).foldl (paraStep opts) initChunkState) :=
      paraFold_inv opts _ initChunkState (by simp [ChunkIdxInv, initChunkState])
    set st := (splitIntoParagraphs (normalizeNewlines t)).foldl (paraStep opts) initChunkState with hst
    simp only [ChunkIdxInv] at hfold
    have hlen : st.chunks.length = st.chunkIndex := by
      have := congrArg List.length hfold
      simpa using this
    split
    · split
      · rw [mergeLast_map_chunkIndex, mergeLast_length, hfold, hlen]
      · simp only [List.map_append, List.map_cons, List.map_nil, hfold, List.length_append,
          List.length_cons, List.length_nil, hlen]
        rw [← List.range_succ]
    · rw [hfold, hlen]

end DeScribe
